import Mathlib

/-!
Verification of the slide-packing core of the messe-app repository
(`src/services/powerpoint.ts`).  JavaScript strings are embedded as
`List Char`; each definition below transcribes one private method of
`PowerPointService`, keeping its name.  Definitions marked
"Modelled from the spec" follow the specification's words instead and
exist only to be compared with the code-derived definitions.
-/

namespace Messe

/-- A piece of text: a JavaScript string as its character list. -/
abbrev Text := List Char

/-- The character class `\s` of the JavaScript regexes used by the source,
for the characters this embedding handles: space, tab, newline, carriage
return, vertical tab, form feed. -/
def isWS (c : Char) : Bool :=
  c = ' ' || c = '\t' || c = '\n' || c = '\r' || c = '\x0b' || c = '\x0c'

/-- Split a text at every whitespace character, keeping empty pieces:
the semantics of `text.split(/\s+/)` once empty pieces are dropped
(dropping is done by `words`).  Never returns `[]`. -/
def splitWs : Text → List Text
  | [] => [[]]
  | c :: cs =>
    if isWS c then [] :: splitWs cs
    else
      match splitWs cs with
      | [] => [[c]]
      | g :: gs => (c :: g) :: gs

/-- The whitespace-delimited words of a text: `text.split(/\s+/)` with
empty strings filtered out, as in the source's `countWords`. -/
def words (t : Text) : List Text :=
  (splitWs t).filter (fun w => !w.isEmpty)

/-- `countWords` of the source:
`text.trim().split(/\s+/).filter(word => word.length > 0).length`.
The initial `trim()` only removes surrounding whitespace, which the
empty-word filter discards anyway, so the word list is `words`. -/
def countWords (t : Text) : Nat :=
  (words t).length

/-- Drop leading whitespace (the left half of `String.prototype.trim`). -/
def trimL (t : Text) : Text :=
  t.dropWhile isWS

/-- Drop trailing whitespace (the right half of `String.prototype.trim`). -/
def trimR (t : Text) : Text :=
  (t.reverse.dropWhile isWS).reverse

/-- `String.prototype.trim`: drop leading and trailing whitespace. -/
def trim (t : Text) : Text :=
  trimR (trimL t)

/-- Join texts with a single separator character between consecutive
pieces (`Array.prototype.join` with a one-character separator). -/
def joinSep (sep : Char) : List Text → Text
  | [] => []
  | [u] => u
  | u :: v :: us => u ++ sep :: joinSep sep (v :: us)

/-- The source's accumulation step
`acc += (acc ? sep : '') + piece`: an empty accumulator is replaced by
the piece, a non-empty one gets the separator and then the piece. -/
def appendSep (sep : Char) (acc piece : Text) : Text :=
  if acc.isEmpty then piece else acc ++ sep :: piece

/-- Collapse whitespace: every maximal whitespace run becomes a single
space and surrounding whitespace disappears (the normal form used by
the spec's content-preservation property P1). -/
def collapseWs (t : Text) : Text :=
  joinSep ' ' (words t)

/-! ### The sentence and section splitters -/

/-- A sentence-terminal character of the lookbehind `(?<=[.!?])`. -/
def isTerminalCh (c : Char) : Bool :=
  c = '.' || c = '!' || c = '?'

/-- The pieces of `text.split(/(?<=[.!?])\s+/)`.  The scan keeps the
current piece reversed in `cur`; a whitespace character directly after a
terminal character opens a separator, and `skip = true` consumes the
rest of the (maximal, greedy `\s+`) whitespace run.  At the start of the
text `cur` is empty and its default head `' '` is not terminal, matching
the regex lookbehind failing at position 0. -/
def sentencePieces (skip : Bool) (cur : Text) : Text → List Text
  | [] => [cur.reverse]
  | c :: cs =>
    if skip then
      if isWS c then sentencePieces true cur cs
      else sentencePieces false [c] cs
    else
      if isWS c && isTerminalCh (cur.headD ' ') then
        cur.reverse :: sentencePieces true [] cs
      else sentencePieces false (c :: cur) cs

/-- `splitIntoSentences` of the source:
`text.split(/(?<=[.!?])\s+/).map(s => s.trim()).filter(s => s.length > 0)`. -/
def splitIntoSentences (text : Text) : List Text :=
  ((sentencePieces false [] text).map trim).filter (fun s => !s.isEmpty)

/-- `text.split('\n')`, keeping empty pieces.  Never returns `[]`. -/
def splitLines : Text → List Text
  | [] => [[]]
  | c :: cs =>
    if c = '\n' then [] :: splitLines cs
    else
      match splitLines cs with
      | [] => [[c]]
      | l :: ls => (c :: l) :: ls

/-- A line consisting only of whitespace. -/
def isBlankLine (l : Text) : Bool :=
  l.all isWS

/-- Group a line list at its blank lines, the line-level semantics of
`lyrics.split(/\n\s*\n/)`: that regex separator is exactly a newline, a
possibly empty whitespace run, and another newline, so the split's
pieces are the maximal runs of non-blank lines — up to whitespace at the
piece boundaries and empty pieces, both of which the caller's
`part.trim()` and emptiness filter erase.  Empty groups (from adjacent
blank lines) are kept here and die in that same filter. -/
def splitBlank : List Text → List (List Text)
  | [] => [[]]
  | l :: ls =>
    if isBlankLine l then [] :: splitBlank ls
    else
      match splitBlank ls with
      | [] => [[l]]
      | g :: gs => (l :: g) :: gs

/-- The section type strings `'verse' | 'refrain' | 'numbered_verse'`. -/
inductive SectionType
  | verse
  | refrain
  | numbered_verse
deriving DecidableEq

/-- A section of a song: `{content: string, type: string}`. -/
structure SongSection where
  content : Text
  type : SectionType
deriving DecidableEq

/-- Lowercase a text, `String.prototype.toLowerCase` on the characters
this embedding handles. -/
def toLowerText (t : Text) : Text :=
  t.map Char.toLower

/-- `String.prototype.includes(pat)`: some tail of `t` starts with `pat`. -/
def containsSub (pat : Text) : Text → Bool
  | [] => pat.isEmpty
  | c :: cs => pat.isPrefixOf (c :: cs) || containsSub pat cs

/-- `trimmedPart.startsWith('R/')`. -/
def startsWithRslash (t : Text) : Bool :=
  List.isPrefixOf ['R', '/'] t

/-- `/^\d+\./.test(t)`: one or more leading digits followed by a period. -/
def startsNumDot (t : Text) : Bool :=
  let ds := t.takeWhile Char.isDigit
  !ds.isEmpty && ((t.drop ds.length).head? == some '.')

/-- The classification of one trimmed part inside
`splitSongIntoSections`: refrain when the part starts with `R/` or its
lowercased content contains `refrain` anywhere, else numbered verse when
it starts with digits and a period, else verse. -/
def classifyType (t : Text) : SectionType :=
  if startsWithRslash t || containsSub ("refrain".toList) (toLowerText t) then .refrain
  else if startsNumDot t then .numbered_verse
  else .verse

/-- `splitSongIntoSections` of the source: split the lyrics on
`/\n\s*\n/`, trim each part, drop empty parts, classify the rest. -/
def splitSongIntoSections (lyrics : Text) : List SongSection :=
  (((splitBlank (splitLines lyrics)).map
      (fun g => trim (joinSep '\n' g))).filter (fun p => !p.isEmpty)).map
    (fun p => ⟨p, classifyType p⟩)

/-! ### The greedy packer, the merge pass and the song pipeline -/

/-- `MIN_WORDS_PER_SLIDE` of the source. -/
def MIN_WORDS_PER_SLIDE : Nat := 80

/-- `MAX_WORDS_PER_SLIDE` of the source. -/
def MAX_WORDS_PER_SLIDE : Nat := 90

/-- A reading-mode output chunk `{content: string, wordCount: number}`. -/
structure Chunk where
  content : Text
  wordCount : Nat
deriving DecidableEq

/-- The sentence loop of `optimizeContentForWordCount`, carrying the
mutable `currentChunk`/`currentWordCount` pair.  When adding the next
sentence would pass `MAX` and the accumulator is non-empty, the source
first — if the accumulator is under `MIN` and the sentence has at most
15 words — force-appends the sentence, then closes the chunk, and then
unconditionally restarts the accumulator with that same sentence; this
transcription keeps that control flow exactly, duplication included. -/
def packChunks (cur : Text) (cwc : Nat) : List Text → List Chunk
  | [] => if (trim cur).isEmpty then [] else [⟨trim cur, cwc⟩]
  | s :: ss =>
    let swc := countWords s
    let pwc := cwc + swc
    if pwc > MAX_WORDS_PER_SLIDE ∧ 0 < cwc then
      if cwc < MIN_WORDS_PER_SLIDE ∧ swc ≤ 15 then
        (if (trim (appendSep ' ' cur s)).isEmpty then []
         else [⟨trim (appendSep ' ' cur s), pwc⟩]) ++ packChunks s swc ss
      else
        (if (trim cur).isEmpty then [] else [⟨trim cur, cwc⟩]) ++ packChunks s swc ss
    else
      packChunks (appendSep ' ' cur s) pwc ss

/-- `mergeSmallChunks` of the source: one left-to-right pass; a chunk
under `MIN` that is not last merges with its right neighbour when the
combined count stays within `MAX`, and the scan then advances past both
(`i++`), so a merge result is never reconsidered. -/
def mergeSmallChunks : List Chunk → List Chunk
  | [] => []
  | [c] => [c]
  | c1 :: c2 :: rest =>
    if c1.wordCount < MIN_WORDS_PER_SLIDE ∧
        c1.wordCount + c2.wordCount ≤ MAX_WORDS_PER_SLIDE then
      ⟨c1.content ++ ' ' :: c2.content, c1.wordCount + c2.wordCount⟩ :: mergeSmallChunks rest
    else
      c1 :: mergeSmallChunks (c2 :: rest)

/-- `optimizeContentForWordCount` of the source: split into sentences,
run the greedy packing loop, then the small-chunk merge pass. -/
def optimizeContentForWordCount (text : Text) : List Chunk :=
  mergeSmallChunks (packChunks [] 0 (splitIntoSentences text))

/-- A song-mode output chunk `{content, wordCount, type}`. -/
structure SongChunk where
  content : Text
  wordCount : Nat
  type : SectionType
deriving DecidableEq

/-- The line loop inside `optimizeSongForWordCount` for one oversized
section: like the reading loop but joining with newlines and — unlike
the reading loop — with no force-append exception at all. -/
def packLines (ty : SectionType) (cur : Text) (cwc : Nat) : List Text → List SongChunk
  | [] => if (trim cur).isEmpty then [] else [⟨trim cur, cwc, ty⟩]
  | l :: ls =>
    let lwc := countWords l
    let pwc := cwc + lwc
    if pwc > MAX_WORDS_PER_SLIDE ∧ 0 < cwc then
      ⟨trim cur, cwc, ty⟩ :: packLines ty l lwc ls
    else
      packLines ty (appendSep '\n' cur l) pwc ls

/-- The per-section body of `optimizeSongForWordCount`: a section whose
whole content is within `MAX` becomes one chunk as-is; otherwise its
lines are packed by the exception-free line loop. -/
def sectionChunks (sec : SongSection) : List SongChunk :=
  let wc := countWords sec.content
  if wc ≤ MAX_WORDS_PER_SLIDE then [⟨sec.content, wc, sec.type⟩]
  else packLines sec.type [] 0 (splitLines sec.content)

/-- `optimizeSongForWordCount` of the source: sections in order, each
contributing its chunks; no merge pass runs afterwards. -/
def optimizeSongForWordCount (lyrics : Text) : List SongChunk :=
  (splitSongIntoSections lyrics).flatMap sectionChunks

/-! ### Title generation -/

/-- The decimal digit character of `d < 10`. -/
def digitChar (d : Nat) : Char :=
  Char.ofNat (48 + d)

/-- Decimal digits of `n`, most significant first, with `fuel`
recursion depth (`fuel = n + 1` always suffices). -/
def natCharsAux : Nat → Nat → List Char
  | 0, _ => []
  | fuel + 1, n =>
    if n < 10 then [digitChar n]
    else natCharsAux fuel (n / 10) ++ [digitChar (n % 10)]

/-- The decimal representation of `n`, as JavaScript template literals
render a number. -/
def natToChars (n : Nat) : Text :=
  natCharsAux (n + 1) n

/-- The ` (<index>/<total>)` suffix every generated title receives. -/
def titleSfx (index total : Nat) : Text :=
  ' ' :: '(' :: natToChars index ++ '/' :: natToChars total ++ [')']

/-- `generateOptimizedVerseTitle` of the source.  `index` and `total`
are whatever the caller passes (the caller passes the 1-based position
in, and length of, the flat chunk list of the whole song).  For a
numbered verse the leading digits of the chunk's own content are used
verbatim when present (`/^(\d+)\./`), else the passed `index`. -/
def generateOptimizedVerseTitle (verse : SongChunk) (songTitle : Text)
    (index total : Nat) : Text :=
  let base :=
    match verse.type with
    | .refrain => songTitle ++ (" - Refrain".toList)
    | .numbered_verse =>
      let ds := verse.content.takeWhile Char.isDigit
      let num :=
        if !ds.isEmpty && ((verse.content.drop ds.length).head? == some '.') then ds
        else natToChars index
      songTitle ++ (" - Couplet ".toList) ++ num
    | .verse => songTitle ++ (" - Partie ".toList) ++ natToChars index
  base ++ titleSfx index total

/-- The slide titles `createOptimizedSongSlides` generates: it runs
`optimizeSongForWordCount` once and maps
`generateOptimizedVerseTitle(verse, song.title, index + 1, optimizedVerses.length)`
over the flat result — position and total are global to the song. -/
def songSlideTitles (songTitle lyrics : Text) : List Text :=
  let vs := optimizeSongForWordCount lyrics
  (List.range vs.length).map
    (fun i => generateOptimizedVerseTitle (vs.getD i ⟨[], 0, .verse⟩) songTitle (i + 1) vs.length)

/-! ### Lemmas about words and whitespace -/

theorem splitWs_ne_nil (t : Text) : splitWs t ≠ [] := by
  cases t with
  | nil => simp [splitWs]
  | cons c cs =>
    simp only [splitWs]
    split
    · simp
    · cases h : splitWs cs <;> simp

theorem words_nil : words [] = [] := rfl

theorem words_cons_ws {c : Char} (hc : isWS c = true) (cs : Text) :
    words (c :: cs) = words cs := by
  simp [words, splitWs, hc]

theorem splitWs_append_ws {c : Char} (hc : isWS c = true) (a b : Text) :
    splitWs (a ++ c :: b) = splitWs a ++ splitWs b := by
  induction a with
  | nil => simp [splitWs, hc]
  | cons x a ih =>
    by_cases hx : isWS x = true
    · simp [splitWs, hx, ih]
    · simp only [List.cons_append, splitWs, hx, Bool.false_eq_true, if_false, List.append_eq]
      rw [ih]
      cases h : splitWs a with
      | nil => exact absurd h (splitWs_ne_nil a)
      | cons g gs => simp [h]

theorem words_append_ws {c : Char} (hc : isWS c = true) (a b : Text) :
    words (a ++ c :: b) = words a ++ words b := by
  simp [words, splitWs_append_ws hc, List.filter_append]

theorem countWords_append_ws {c : Char} (hc : isWS c = true) (a b : Text) :
    countWords (a ++ c :: b) = countWords a + countWords b := by
  simp [countWords, words_append_ws hc]

theorem words_wsonly {t : Text} (h : ∀ c ∈ t, isWS c = true) : words t = [] := by
  induction t with
  | nil => rfl
  | cons c cs ih =>
    rw [words_cons_ws (h c (List.mem_cons_self c _))]
    exact ih (fun x hx => h x (List.mem_cons_of_mem c hx))

theorem words_append_wsonly {b : Text} (h : ∀ c ∈ b, isWS c = true) (a : Text) :
    words (a ++ b) = words a := by
  cases b with
  | nil => simp
  | cons c cs =>
    rw [words_append_ws (h c (List.mem_cons_self c _)) a cs,
      words_wsonly (fun x hx => h x (List.mem_cons_of_mem c hx))]
    simp

theorem words_cons_not_ws {c : Char} (hc : isWS c = false) (cs : Text) :
    words (c :: cs) ≠ [] := by
  simp only [words, splitWs, hc, Bool.false_eq_true, if_false]
  cases h : splitWs cs with
  | nil => exact absurd h (splitWs_ne_nil cs)
  | cons g gs => simp [h, List.filter_cons]

theorem countWords_appendSep {sep : Char} (hsep : isWS sep = true) (a b : Text) :
    countWords (appendSep sep a b) = countWords a + countWords b := by
  by_cases ha : a.isEmpty
  · have : a = [] := by cases a <;> simp_all
    simp [appendSep, this, countWords, words_nil]
  · simp [appendSep, ha, countWords_append_ws hsep]

/-! ### Lemmas about trimming -/

theorem trimL_trimL (t : Text) : trimL (trimL t) = trimL t := by
  induction t with
  | nil => rfl
  | cons c cs ih =>
    by_cases hc : isWS c = true
    · simpa [trimL, List.dropWhile_cons, hc] using ih
    · simp [trimL, List.dropWhile_cons, hc]

theorem trimR_trimR (t : Text) : trimR (trimR t) = trimR t := by
  have h := trimL_trimL t.reverse
  simp only [trimL] at h
  simp [trimR, List.reverse_reverse, h]

theorem trimL_eq_self_of_head {c : Char} (hc : isWS c = false) (cs : Text) :
    trimL (c :: cs) = c :: cs := by
  simp [trimL, List.dropWhile_cons, hc]

theorem trimL_eq_nil_or_head (t : Text) :
    trimL t = [] ∨ ∃ c cs, trimL t = c :: cs ∧ isWS c = false := by
  induction t with
  | nil => exact Or.inl rfl
  | cons c cs ih =>
    by_cases hc : isWS c = true
    · simpa [trimL, List.dropWhile_cons, hc] using ih
    · exact Or.inr ⟨c, cs, by simp [trimL, List.dropWhile_cons, hc], by simpa using hc⟩

theorem trimR_isPrefix (t : Text) : trimR t <+: t := by
  have h : t.reverse.dropWhile isWS <:+ t.reverse := List.dropWhile_suffix isWS
  have := List.reverse_prefix.mpr h
  simpa [trimR] using this

theorem trimL_trimR_of_trimL (t : Text) (h : trimL t = t) :
    trimL (trimR t) = trimR t := by
  cases hr : trimR t with
  | nil => rfl
  | cons c cs =>
    have hpre : trimR t <+: t := trimR_isPrefix t
    rw [hr] at hpre
    obtain ⟨s, hs⟩ := hpre
    have hhead : isWS c = false := by
      rcases trimL_eq_nil_or_head t with h0 | ⟨d, ds, hd, hws⟩
      · rw [h] at h0; subst h0; simp at hs
      · rw [h] at hd
        have : c = d := by
          rw [← hs] at hd
          simpa using congrArg List.head? hd
        rw [this]; exact hws
    exact trimL_eq_self_of_head hhead cs

theorem trimL_trim (t : Text) : trimL (trim t) = trim t :=
  trimL_trimR_of_trimL (trimL t) (trimL_trimL t)

theorem trim_trim (t : Text) : trim (trim t) = trim t := by
  have h1 : trimL (trim t) = trim t := trimL_trim t
  show trimR (trimL (trim t)) = trim t
  rw [h1]
  show trimR (trimR (trimL t)) = trim t
  rw [trimR_trimR]
  rfl

theorem words_trimL (t : Text) : words (trimL t) = words t := by
  induction t with
  | nil => rfl
  | cons c cs ih =>
    by_cases hc : isWS c = true
    · rw [words_cons_ws hc]
      simpa [trimL, List.dropWhile_cons, hc] using ih
    · simp [trimL, List.dropWhile_cons, hc]

theorem words_trimR (t : Text) : words (trimR t) = words t := by
  have hdecomp : t = trimR t ++ (t.reverse.takeWhile isWS).reverse := by
    have h := congrArg List.reverse (List.takeWhile_append_dropWhile isWS t.reverse)
    rw [List.reverse_append, List.reverse_reverse] at h
    simpa [trimR] using h.symm
  have hws : ∀ c ∈ (t.reverse.takeWhile isWS).reverse, isWS c = true := by
    intro c hcmem
    exact List.mem_takeWhile_imp (by simpa using hcmem)
  conv_rhs => rw [hdecomp]
  rw [words_append_wsonly hws]

theorem words_trim (t : Text) : words (trim t) = words t := by
  rw [trim, words_trimR, words_trimL]

theorem countWords_trim (t : Text) : countWords (trim t) = countWords t := by
  simp [countWords, words_trim]

theorem trim_ne_nil_of_words (t : Text) (h : words t ≠ []) : trim t ≠ [] := by
  intro hnil
  apply h
  rw [← words_trim t, hnil, words_nil]

theorem words_ne_nil_of_trim (t : Text) (h : trim t ≠ []) : words t ≠ [] := by
  rw [← words_trim]
  cases ht : trim t with
  | nil => exact absurd ht h
  | cons c cs =>
    have hhead : isWS c = false := by
      have h1 : trimL (trim t) = trim t := trimL_trim t
      rw [ht] at h1
      by_contra hcon
      have hc : isWS c = true := by simpa using hcon
      have h2 : trimL (c :: cs) = trimL cs := by simp [trimL, List.dropWhile_cons, hc]
      have hlen : (trimL cs).length ≤ cs.length := (List.dropWhile_suffix isWS).length_le
      rw [h2] at h1
      have := congrArg List.length h1
      simp at this
      omega
    exact words_cons_not_ws hhead cs

/-! ### Lemmas about joining and splitting lines -/

theorem splitLines_ne_nil (t : Text) : splitLines t ≠ [] := by
  cases t with
  | nil => simp [splitLines]
  | cons c cs =>
    simp only [splitLines]
    split
    · simp
    · cases h : splitLines cs <;> simp

theorem joinSep_splitLines (t : Text) : joinSep '\n' (splitLines t) = t := by
  induction t with
  | nil => rfl
  | cons c cs ih =>
    by_cases hc : c = '\n'
    · subst hc
      simp only [splitLines, if_pos rfl]
      cases h : splitLines cs with
      | nil => exact absurd h (splitLines_ne_nil cs)
      | cons l ls =>
        rw [h] at ih
        simp [joinSep, ← ih]
    · simp only [splitLines, hc, if_false]
      cases h : splitLines cs with
      | nil => exact absurd h (splitLines_ne_nil cs)
      | cons l ls =>
        rw [h] at ih
        cases ls with
        | nil => simpa [joinSep] using congrArg (fun x => c :: x) ih
        | cons l2 ls2 => simpa [joinSep] using congrArg (fun x => c :: x) ih

theorem countWords_joinSep {sep : Char} (hsep : isWS sep = true) (gs : List Text) :
    countWords (joinSep sep gs) = (gs.map countWords).sum := by
  induction gs with
  | nil => simp [joinSep, countWords, words_nil]
  | cons g gs ih =>
    cases gs with
    | nil => simp [joinSep]
    | cons g2 gs2 =>
      simp only [joinSep, List.map_cons, List.sum_cons]
      rw [countWords_append_ws hsep]
      simp only [List.map_cons, List.sum_cons] at ih
      omega

/-- The accumulated text after folding the source's `+=` append over a
piece list. -/
def appendAll (sep : Char) (cur : Text) (ls : List Text) : Text :=
  ls.foldl (appendSep sep) cur

theorem appendAll_nil (sep : Char) (cur : Text) : appendAll sep cur [] = cur := rfl

theorem appendAll_cons (sep : Char) (cur l : Text) (ls : List Text) :
    appendAll sep cur (l :: ls) = appendAll sep (appendSep sep cur l) ls := rfl

theorem joinSep_cons_append (sep : Char) (a b : Text) (ls : List Text) :
    joinSep sep ((a ++ sep :: b) :: ls) = a ++ sep :: joinSep sep (b :: ls) := by
  cases ls with
  | nil => simp [joinSep]
  | cons x xs => simp [joinSep]

theorem appendAll_ne_nil (sep : Char) (cur : Text) (ls : List Text) (h : cur ≠ []) :
    appendAll sep cur ls = joinSep sep (cur :: ls) := by
  induction ls generalizing cur with
  | nil => simp [appendAll, joinSep]
  | cons l ls ih =>
    rw [appendAll_cons]
    have hne : appendSep sep cur l = cur ++ sep :: l := by
      simp [appendSep, List.isEmpty_iff, h]
    rw [hne]
    have : cur ++ sep :: l ≠ [] := by simp
    rw [ih (cur ++ sep :: l) this, joinSep_cons_append]
    simp [joinSep]

theorem appendAll_from_nil (sep : Char) (l : Text) (ls : List Text) (h : l ≠ []) :
    appendAll sep [] (l :: ls) = joinSep sep (l :: ls) := by
  rw [appendAll_cons]
  have : appendSep sep [] l = l := by simp [appendSep]
  rw [this, appendAll_ne_nil sep l ls h]

theorem countWords_sum_splitLines (t : Text) :
    ((splitLines t).map countWords).sum = countWords t := by
  rw [← countWords_joinSep (show isWS '\n' = true by decide) (splitLines t), joinSep_splitLines]

theorem trim_head_not_ws {t : Text} {c : Char} {cs : Text}
    (h : trim t = t) (ht : t = c :: cs) : isWS c = false := by
  have h1 : trimL t = t := by rw [← h]; exact trimL_trim t
  subst ht
  by_contra hcon
  have hc : isWS c = true := by simpa using hcon
  have h2 : trimL (c :: cs) = trimL cs := by simp [trimL, List.dropWhile_cons, hc]
  have hlen : (trimL cs).length ≤ cs.length := (List.dropWhile_suffix isWS).length_le
  rw [h2] at h1
  have hlen2 := congrArg List.length h1
  simp only [List.length_cons] at hlen2
  omega

theorem splitLines_cons_ne {c : Char} (hc : ¬ c = '\n') (cs : Text) :
    ∃ l ls, splitLines (c :: cs) = (c :: l) :: ls := by
  simp only [splitLines, hc, if_false]
  cases h : splitLines cs with
  | nil => exact absurd h (splitLines_ne_nil cs)
  | cons l ls => exact ⟨l, ls, rfl⟩

/-! ### Spec-side models (for comparison with the code only) -/

/-- Modelled from the spec: the greedy packer of §4.2, steps 1–5
including the step-3a overflow exception.  In step 3a the unit is
force-appended, the chunk closes, and the next chunk starts empty (the
spec's reading: the unit is consumed exactly once).  In step 3b the
chunk closes unappended and the next chunk holds only the new unit.
Emitted contents are the joined units trimmed, and "emit the current
chunk if it has any content" is read as non-emptiness after trimming —
the code's normalization conventions, adopted so that only algorithmic
differences show up in comparisons. -/
def specPack (sep : Char) (cur : Text) (cwc : Nat) : List Text → List Chunk
  | [] => if (trim cur).isEmpty then [] else [⟨trim cur, cwc⟩]
  | u :: us =>
    let uwc := countWords u
    let pwc := cwc + uwc
    if pwc > MAX_WORDS_PER_SLIDE ∧ 0 < cwc then
      if cwc < MIN_WORDS_PER_SLIDE ∧ uwc ≤ 15 then
        ⟨trim (appendSep sep cur u), pwc⟩ :: specPack sep [] 0 us
      else
        ⟨trim cur, cwc⟩ :: specPack sep u uwc us
    else
      specPack sep (appendSep sep cur u) pwc us

/-- Modelled from the spec: the greedy packer of §4.2 with step 3a
removed (steps 1, 2, 3b, 4, 5 only), same conventions as `specPack`. -/
def specPackNoExc (sep : Char) (cur : Text) (cwc : Nat) : List Text → List Chunk
  | [] => if (trim cur).isEmpty then [] else [⟨trim cur, cwc⟩]
  | u :: us =>
    let uwc := countWords u
    let pwc := cwc + uwc
    if pwc > MAX_WORDS_PER_SLIDE ∧ 0 < cwc then
      ⟨trim cur, cwc⟩ :: specPackNoExc sep u uwc us
    else
      specPackNoExc sep (appendSep sep cur u) pwc us

/-- Modelled from the spec (claim C3 as stated): per Section, the §4.2
packer with the step-3a exception over the Section's line units, joined
by newline, tagged with the Section's type. -/
def specSongChunks (lyrics : Text) : List SongChunk :=
  (splitSongIntoSections lyrics).flatMap fun sec =>
    (specPack '\n' [] 0 (splitLines sec.content)).map
      (fun c => ⟨c.content, c.wordCount, sec.type⟩)

/-- The amended claim C3's spec side: per Section, the §4.2 packer
without the step-3a exception over the Section's line units. -/
def specSongChunksNoExc (lyrics : Text) : List SongChunk :=
  (splitSongIntoSections lyrics).flatMap fun sec =>
    (specPackNoExc '\n' [] 0 (splitLines sec.content)).map
      (fun c => ⟨c.content, c.wordCount, sec.type⟩)

/-! ### The song-mode packer is the exception-free §4.2 packer -/

theorem packLines_eq_specPackNoExc (ty : SectionType) :
    ∀ (ls : List Text) (cur : Text) (cwc : Nat),
      packLines ty cur cwc ls =
        (specPackNoExc '\n' cur cwc ls).map
          (fun c => ⟨c.content, c.wordCount, ty⟩) := by
  intro ls
  induction ls with
  | nil =>
    intro cur cwc
    by_cases h : (trim cur).isEmpty <;> simp [packLines, specPackNoExc, h]
  | cons l ls ih =>
    intro cur cwc
    simp only [packLines, specPackNoExc]
    split
    · simp [ih]
    · exact ih _ _

theorem specPackNoExc_fits (sep : Char) :
    ∀ (ls : List Text) (cur : Text) (cwc : Nat),
      cwc + (ls.map countWords).sum ≤ MAX_WORDS_PER_SLIDE →
      specPackNoExc sep cur cwc ls =
        (if (trim (appendAll sep cur ls)).isEmpty then []
         else [⟨trim (appendAll sep cur ls), cwc + (ls.map countWords).sum⟩]) := by
  intro ls
  induction ls with
  | nil =>
    intro cur cwc h
    simp [specPackNoExc, appendAll_nil]
  | cons l ls ih =>
    intro cur cwc h
    simp only [List.map_cons, List.sum_cons] at h
    have hcond : ¬ (cwc + countWords l > MAX_WORDS_PER_SLIDE ∧ 0 < cwc) := by
      simp only [MAX_WORDS_PER_SLIDE] at h ⊢
      omega
    simp only [specPackNoExc, hcond, if_false]
    rw [appendAll_cons]
    rw [ih (appendSep sep cur l) (cwc + countWords l) (by simp only [MAX_WORDS_PER_SLIDE] at h ⊢; omega)]
    simp only [List.map_cons, List.sum_cons, Nat.add_assoc]

theorem sectionChunks_eq_specNoExc (sec : SongSection)
    (hne : sec.content ≠ []) (htr : trim sec.content = sec.content) :
    sectionChunks sec =
      (specPackNoExc '\n' [] 0 (splitLines sec.content)).map
        (fun c => ⟨c.content, c.wordCount, sec.type⟩) := by
  by_cases hwc : countWords sec.content ≤ MAX_WORDS_PER_SLIDE
  · obtain ⟨c, cs, hcc⟩ : ∃ c cs, sec.content = c :: cs := by
      cases h : sec.content with
      | nil => exact absurd h hne
      | cons c cs => exact ⟨c, cs, rfl⟩
    have hcw : isWS c = false := trim_head_not_ws htr hcc
    have hcnl : ¬ c = '\n' := by
      intro hx
      rw [hx] at hcw
      simp [isWS] at hcw
    obtain ⟨l, ls, hsl⟩ := splitLines_cons_ne hcnl cs
    have hfits : 0 + ((splitLines sec.content).map countWords).sum ≤ MAX_WORDS_PER_SLIDE := by
      rw [countWords_sum_splitLines]
      omega
    have happ : appendAll '\n' [] (splitLines sec.content) = sec.content := by
      rw [hcc, hsl]
      rw [appendAll_from_nil '\n' (c :: l) ls (by simp)]
      rw [← hsl, ← hcc, joinSep_splitLines]
    rw [specPackNoExc_fits '\n' (splitLines sec.content) [] 0 hfits, happ, htr]
    have hnemp : sec.content.isEmpty = false := by
      rw [hcc]; rfl
    rw [hnemp]
    simp only [sectionChunks, if_pos hwc, Bool.false_eq_true, if_false,
      countWords_sum_splitLines, List.map_cons, List.map_nil, Nat.zero_add]
  · simp only [sectionChunks, if_neg hwc]
    exact packLines_eq_specPackNoExc sec.type (splitLines sec.content) [] 0

theorem mem_splitSongIntoSections {lyrics : Text} {sec : SongSection}
    (h : sec ∈ splitSongIntoSections lyrics) :
    sec.content ≠ [] ∧ trim sec.content = sec.content ∧
      sec.type = classifyType sec.content := by
  simp only [splitSongIntoSections, List.mem_map, List.mem_filter] at h
  obtain ⟨p, ⟨hp1, hp2⟩, rfl⟩ := h
  obtain ⟨g, hg, rfl⟩ := hp1
  refine ⟨?_, trim_trim _, rfl⟩
  simpa using hp2

/-! ### The merge pass, instrumented -/

/-- `mergeSmallChunks` instrumented with a provenance tag: `true` marks
a chunk the pass produced by merging a pair, `false` an input chunk
passed through unmerged.  The recursion mirrors `mergeSmallChunks`
exactly. -/
def mergeSmallChunksT : List Chunk → List (Chunk × Bool)
  | [] => []
  | [c] => [(c, false)]
  | c1 :: c2 :: rest =>
    if c1.wordCount < MIN_WORDS_PER_SLIDE ∧
        c1.wordCount + c2.wordCount ≤ MAX_WORDS_PER_SLIDE then
      (⟨c1.content ++ ' ' :: c2.content, c1.wordCount + c2.wordCount⟩, true) :: mergeSmallChunksT rest
    else
      (c1, false) :: mergeSmallChunksT (c2 :: rest)

/-- What local maximality of the pass says about two adjacent outputs:
if both passed through unmerged, they are not a mergeable pair (both
under `MIN` with combined count within `MAX`). -/
def MergeMaximal (a b : Chunk × Bool) : Prop :=
  a.2 = false → b.2 = false →
    ¬(a.1.wordCount < MIN_WORDS_PER_SLIDE ∧ b.1.wordCount < MIN_WORDS_PER_SLIDE ∧
      a.1.wordCount + b.1.wordCount ≤ MAX_WORDS_PER_SLIDE)

theorem mergeSmallChunksT_fst : ∀ cs : List Chunk,
    (mergeSmallChunksT cs).map Prod.fst = mergeSmallChunks cs
  | [] => rfl
  | [c] => rfl
  | c1 :: c2 :: rest => by
    simp only [mergeSmallChunksT, mergeSmallChunks]
    split
    · simp [mergeSmallChunksT_fst rest]
    · simp [mergeSmallChunksT_fst (c2 :: rest)]

theorem mergeSmallChunksT_head : ∀ (c : Chunk) (cs : List Chunk),
    (∃ m, (mergeSmallChunksT (c :: cs)).head? = some (m, true)) ∨
      (mergeSmallChunksT (c :: cs)).head? = some (c, false)
  | _, [] => Or.inr rfl
  | c, c2 :: rest => by
    simp only [mergeSmallChunksT]
    split
    · exact Or.inl ⟨_, rfl⟩
    · exact Or.inr rfl

theorem chain_mergeSmallChunksT : ∀ cs : List Chunk,
    List.Chain' MergeMaximal (mergeSmallChunksT cs)
  | [] => List.chain'_nil
  | [c] => List.chain'_singleton _
  | c1 :: c2 :: rest => by
    simp only [mergeSmallChunksT]
    split
    · refine List.chain'_cons'.mpr ⟨?_, chain_mergeSmallChunksT rest⟩
      intro b _ hfalse
      simp at hfalse
    · rename_i hcond
      refine List.chain'_cons'.mpr ⟨?_, chain_mergeSmallChunksT (c2 :: rest)⟩
      intro b hb h1 h2
      rcases mergeSmallChunksT_head c2 rest with ⟨m, hm⟩ | hm
      · rw [hm] at hb
        simp only [Option.mem_def, Option.some_inj] at hb
        rw [← hb] at h2
        simp at h2
      · rw [hm] at hb
        simp only [Option.mem_def, Option.some_inj] at hb
        rw [← hb]
        intro hpair
        exact hcond ⟨hpair.1, hpair.2.2⟩

/-! ### Trimming joins of trimmed pieces -/

theorem dropWhile_cons_eq_self {p : Char → Bool} {c : Char} {cs : Text}
    (h : List.dropWhile p (c :: cs) = c :: cs) : p c = false := by
  by_contra hcon
  have hc : p c = true := by simpa using hcon
  rw [List.dropWhile_cons, if_pos hc] at h
  have h2 : (List.dropWhile p cs).length ≤ cs.length := (List.dropWhile_suffix p).length_le
  have h3 := congrArg List.length h
  simp only [List.length_cons] at h3
  omega

theorem trimR_trim (t : Text) : trimR (trim t) = trim t :=
  trimR_trimR (trimL t)

theorem trim_last_not_ws {t : Text} (h : trim t = t) {d : Char} {ds : Text}
    (hrev : t.reverse = d :: ds) : isWS d = false := by
  have h1 : trimR t = t := by rw [← h]; exact trimR_trim t
  have h2 : List.dropWhile isWS t.reverse = t.reverse := by
    have := congrArg List.reverse h1
    rwa [trimR, List.reverse_reverse] at this
  rw [hrev] at h2
  exact dropWhile_cons_eq_self h2

theorem trim_append_sep (sep : Char) {a b : Text} (ha : trim a = a) (hb : trim b = b)
    (hna : a ≠ []) (hnb : b ≠ []) : trim (a ++ sep :: b) = a ++ sep :: b := by
  obtain ⟨c, cs, rfl⟩ : ∃ c cs, a = c :: cs := by
    cases a with
    | nil => exact absurd rfl hna
    | cons c cs => exact ⟨c, cs, rfl⟩
  have hcw : isWS c = false := trim_head_not_ws ha rfl
  obtain ⟨d, ds, hrev⟩ : ∃ d ds, b.reverse = d :: ds := by
    cases hb' : b.reverse with
    | nil => exact absurd (by simpa using congrArg List.reverse hb') hnb
    | cons d ds => exact ⟨d, ds, rfl⟩
  have hdw : isWS d = false := trim_last_not_ws hb hrev
  have hL : trimL ((c :: cs) ++ sep :: b) = (c :: cs) ++ sep :: b := by
    simp [trimL, List.dropWhile_cons, hcw]
  have hrevall : ((c :: cs) ++ sep :: b).reverse = d :: (ds ++ sep :: (c :: cs).reverse) := by
    rw [List.reverse_append, List.reverse_cons, hrev]
    simp
  have hdrop : List.dropWhile isWS (((c :: cs) ++ sep :: b).reverse) =
      ((c :: cs) ++ sep :: b).reverse := by
    rw [hrevall, List.dropWhile_cons, if_neg (by simp [hdw])]
  show trimR (trimL _) = _
  rw [hL, trimR, hdrop, List.reverse_reverse]

theorem joinSep_ne_nil (sep : Char) {u : Text} (hu : u ≠ []) (us : List Text) :
    joinSep sep (u :: us) ≠ [] := by
  cases us with
  | nil => simpa [joinSep] using hu
  | cons v vs => simp [joinSep]

theorem joinSep_append_single (sep : Char) (y : Text) : ∀ xs : List Text, xs ≠ [] →
    joinSep sep (xs ++ [y]) = joinSep sep xs ++ sep :: y
  | [], h => absurd rfl h
  | [x], _ => by simp [joinSep]
  | x1 :: x2 :: xs, _ => by
    have ih := joinSep_append_single sep y (x2 :: xs) (by simp)
    show joinSep sep (x1 :: ((x2 :: xs) ++ [y])) = _
    cases xs with
    | nil => simp [joinSep, List.append_assoc]
    | cons x3 xs' =>
      simp only [List.cons_append] at ih ⊢
      simp only [joinSep] at ih ⊢
      rw [ih]
      simp [List.append_assoc]

theorem joinSep_append (sep : Char) : ∀ (us vs : List Text), us ≠ [] → vs ≠ [] →
    joinSep sep (us ++ vs) = joinSep sep us ++ sep :: joinSep sep vs
  | [], _, h, _ => absurd rfl h
  | [u], vs, _, hvs => by
    cases vs with
    | nil => exact absurd rfl hvs
    | cons v vs' => simp [joinSep]
  | u1 :: u2 :: us, vs, _, hvs => by
    have ih := joinSep_append sep (u2 :: us) vs (by simp) hvs
    show joinSep sep (u1 :: ((u2 :: us) ++ vs)) = _
    have h1 : joinSep sep (u1 :: ((u2 :: us) ++ vs)) =
        u1 ++ sep :: joinSep sep ((u2 :: us) ++ vs) := by
      cases us <;> cases vs <;> simp [joinSep]
    rw [h1, ih]
    simp [joinSep, List.append_assoc]

theorem trim_joinSep (sep : Char) : ∀ us : List Text, us ≠ [] →
    (∀ u ∈ us, trim u = u ∧ u ≠ []) → trim (joinSep sep us) = joinSep sep us
  | [], h, _ => absurd rfl h
  | [u], _, hU => by
    simpa [joinSep] using (hU u (by simp)).1
  | u :: v :: us, _, hU => by
    have ihall : ∀ w ∈ v :: us, trim w = w ∧ w ≠ [] := fun w hw => hU w (by simp [hw])
    have ih := trim_joinSep sep (v :: us) (by simp) ihall
    obtain ⟨hu, hune⟩ := hU u (by simp)
    have hjne : joinSep sep (v :: us) ≠ [] := joinSep_ne_nil sep (ihall v (by simp)).2 us
    show trim (u ++ sep :: joinSep sep (v :: us)) = _
    rw [trim_append_sep sep hu ih hune hjne]
    simp [joinSep]

theorem words_ne_nil_of_mem {t : Text} (h : ∃ c ∈ t, isWS c = false) : words t ≠ [] := by
  induction t with
  | nil => simp at h
  | cons c cs ih =>
    by_cases hc : isWS c = true
    · rw [words_cons_ws hc]
      apply ih
      obtain ⟨d, hd, hdw⟩ := h
      rcases List.mem_cons.mp hd with rfl | hd
      · rw [hc] at hdw; simp at hdw
      · exact ⟨d, hd, hdw⟩
    · exact words_cons_not_ws (by simpa using hc) cs

/-! ### Well-formedness of emitted chunks -/

/-- A well-formed chunk body: non-empty trimmed content whose stored
word count equals its actual word count. -/
def WfBody (content : Text) (wc : Nat) : Prop :=
  content ≠ [] ∧ trim content = content ∧ wc = countWords content

theorem WfBody.count_pos {content : Text} {wc : Nat} (h : WfBody content wc) :
    1 ≤ wc := by
  obtain ⟨hne, htr, hwc⟩ := h
  have hw : words content ≠ [] := words_ne_nil_of_trim content (by rw [htr]; exact hne)
  rw [hwc]
  cases hws : words content with
  | nil => exact absurd hws hw
  | cons w ws => simp [countWords, hws]

theorem mem_splitIntoSentences {text u : Text} (h : u ∈ splitIntoSentences text) :
    trim u = u ∧ u ≠ [] := by
  simp only [splitIntoSentences, List.mem_filter, List.mem_map] at h
  obtain ⟨⟨p, _, rfl⟩, hne⟩ := h
  exact ⟨trim_trim p, by simpa using hne⟩

theorem packChunks_wf : ∀ (ss : List Text) (cur : Text) (cwc : Nat),
    cwc = countWords cur →
    ∀ ch ∈ packChunks cur cwc ss, WfBody ch.content ch.wordCount := by
  intro ss
  induction ss with
  | nil =>
    intro cur cwc hcwc ch hch
    simp only [packChunks] at hch
    split at hch
    · simp at hch
    · rename_i hne
      simp only [List.mem_singleton] at hch
      subst hch
      exact ⟨by simpa [List.isEmpty_iff] using hne, trim_trim cur,
        by rw [hcwc, countWords_trim]⟩
  | cons s ss ih =>
    intro cur cwc hcwc ch hch
    simp only [packChunks] at hch
    split at hch
    · split at hch
      · rw [List.mem_append] at hch
        rcases hch with hch | hch
        · split at hch
          · simp at hch
          · rename_i hne
            simp only [List.mem_singleton] at hch
            subst hch
            refine ⟨by simpa [List.isEmpty_iff] using hne, trim_trim _, ?_⟩
            rw [countWords_trim, countWords_appendSep (by decide) cur s, hcwc]
        · exact ih s (countWords s) rfl ch hch
      · rw [List.mem_append] at hch
        rcases hch with hch | hch
        · split at hch
          · simp at hch
          · rename_i hne
            simp only [List.mem_singleton] at hch
            subst hch
            exact ⟨by simpa [List.isEmpty_iff] using hne, trim_trim _,
              by rw [hcwc, countWords_trim]⟩
        · exact ih s (countWords s) rfl ch hch
    · exact ih (appendSep ' ' cur s) (cwc + countWords s)
        (by rw [hcwc, countWords_appendSep (by decide)]) ch hch

theorem mergeSmallChunks_wf : ∀ cs : List Chunk,
    (∀ c ∈ cs, WfBody c.content c.wordCount) →
    ∀ ch ∈ mergeSmallChunks cs, WfBody ch.content ch.wordCount
  | [] => by intro _ ch hch; simp [mergeSmallChunks] at hch
  | [c] => by
    intro h ch hch
    simp only [mergeSmallChunks, List.mem_singleton] at hch
    subst hch
    exact h ch (by simp)
  | c1 :: c2 :: rest => by
    intro h ch hch
    simp only [mergeSmallChunks] at hch
    split at hch
    · rcases List.mem_cons.mp hch with hch | hch
      · subst hch
        obtain ⟨h1ne, h1tr, h1wc⟩ := h c1 (by simp)
        obtain ⟨h2ne, h2tr, h2wc⟩ := h c2 (by simp)
        refine ⟨by simp, trim_append_sep ' ' h1tr h2tr h1ne h2ne, ?_⟩
        rw [countWords_append_ws (by decide), ← h1wc, ← h2wc]
      · exact mergeSmallChunks_wf rest (fun c hc => h c (by simp [hc])) ch hch
    · rcases List.mem_cons.mp hch with hch | hch
      · subst hch
        exact h ch (by simp)
      · exact mergeSmallChunks_wf (c2 :: rest)
          (fun c hc => h c (List.mem_cons_of_mem c1 hc)) ch hch

theorem packLines_wf (ty : SectionType) : ∀ (ls : List Text) (cur : Text) (cwc : Nat),
    cwc = countWords cur →
    ∀ ch ∈ packLines ty cur cwc ls, WfBody ch.content ch.wordCount := by
  intro ls
  induction ls with
  | nil =>
    intro cur cwc hcwc ch hch
    simp only [packLines] at hch
    split at hch
    · simp at hch
    · rename_i hne
      simp only [List.mem_singleton] at hch
      subst hch
      exact ⟨by simpa [List.isEmpty_iff] using hne, trim_trim cur,
        by rw [hcwc, countWords_trim]⟩
  | cons l ls ih =>
    intro cur cwc hcwc ch hch
    simp only [packLines] at hch
    split at hch
    · rename_i hcond
      rcases List.mem_cons.mp hch with hch | hch
      · subst hch
        have hpos : 0 < cwc := hcond.2
        have hwords : words cur ≠ [] := by
          intro hw
          rw [hcwc] at hpos
          simp [countWords, hw] at hpos
        exact ⟨trim_ne_nil_of_words cur hwords, trim_trim cur,
          by rw [hcwc, countWords_trim]⟩
      · exact ih l (countWords l) rfl ch hch
    · exact ih (appendSep '\n' cur l) (cwc + countWords l)
        (by rw [hcwc, countWords_appendSep (by decide)]) ch hch

theorem sectionChunks_wf (sec : SongSection) (hne : sec.content ≠ [])
    (htr : trim sec.content = sec.content) :
    ∀ ch ∈ sectionChunks sec, WfBody ch.content ch.wordCount := by
  intro ch hch
  simp only [sectionChunks] at hch
  split at hch
  · simp only [List.mem_singleton] at hch
    subst hch
    exact ⟨hne, htr, rfl⟩
  · exact packLines_wf sec.type (splitLines sec.content) [] 0 rfl ch hch


/-! ### Chunks are joins of whole units -/

/-- A content equal to the single-`sep` join of a non-empty list of
whole units drawn from `U` — no unit appears in part. -/
def JoinOfUnits (sep : Char) (U : List Text) (content : Text) : Prop :=
  ∃ us : List Text, us ≠ [] ∧ (∀ u ∈ us, u ∈ U) ∧ content = joinSep sep us

/-- A content equal to such a join up to an outer trim. -/
def TrimJoinOfUnits (sep : Char) (U : List Text) (content : Text) : Prop :=
  ∃ us : List Text, us ≠ [] ∧ (∀ u ∈ us, u ∈ U) ∧ content = trim (joinSep sep us)

theorem appendSep_joinSep (sep : Char) {us : List Text} (s : Text)
    (hus : us ≠ []) (hne : joinSep sep us ≠ []) :
    appendSep sep (joinSep sep us) s = joinSep sep (us ++ [s]) := by
  rw [appendSep, if_neg (by simpa [List.isEmpty_iff] using hne),
    joinSep_append_single sep s us hus]

theorem joinSep_single (sep : Char) (s : Text) : joinSep sep [s] = s := rfl

theorem appendSep_nil_left (sep : Char) (s : Text) : appendSep sep [] s = s := rfl

theorem packChunks_units (U : List Text) (hU : ∀ u ∈ U, trim u = u ∧ u ≠ []) :
    ∀ (ss : List Text) (cur : Text) (cwc : Nat),
    (∀ s ∈ ss, s ∈ U) →
    (cur = [] ∨ JoinOfUnits ' ' U cur) →
    ∀ ch ∈ packChunks cur cwc ss, JoinOfUnits ' ' U ch.content := by
  intro ss
  induction ss with
  | nil =>
    intro cur cwc _ hcur ch hch
    simp only [packChunks] at hch
    split at hch
    · simp at hch
    · rename_i hne
      simp only [List.mem_singleton] at hch
      subst hch
      rcases hcur with rfl | ⟨us, husne, husU, rfl⟩
      · exact absurd rfl hne
      · refine ⟨us, husne, husU, ?_⟩
        show trim (joinSep ' ' us) = joinSep ' ' us
        exact trim_joinSep ' ' us husne (fun u hu => hU u (husU u hu))
  | cons s ss ih =>
    intro cur cwc hss hcur ch hch
    have hsU : s ∈ U := hss s (by simp)
    have hssU : ∀ x ∈ ss, x ∈ U := fun x hx => hss x (by simp [hx])
    have hrec : ∀ (n : Nat), ∀ ch ∈ packChunks s n ss, JoinOfUnits ' ' U ch.content :=
      fun n =>
        ih s n hssU (Or.inr ⟨[s], by simp, by simpa using hsU, (joinSep_single ' ' s).symm⟩)
    have happ : appendSep ' ' cur s = [] ∨ JoinOfUnits ' ' U (appendSep ' ' cur s) := by
      rcases hcur with rfl | ⟨us, husne, husU, rfl⟩
      · exact Or.inr ⟨[s], by simp, by simpa using hsU, (appendSep_nil_left ' ' s).symm⟩
      · obtain ⟨u0, us0, rfl⟩ : ∃ u0 us0, us = u0 :: us0 := by
          cases us with
          | nil => exact absurd rfl husne
          | cons u0 us0 => exact ⟨u0, us0, rfl⟩
        refine Or.inr ⟨(u0 :: us0) ++ [s], by simp, ?_, ?_⟩
        · intro u hu
          rcases List.mem_append.mp hu with hu | hu
          · exact husU u hu
          · simp only [List.mem_singleton] at hu
            subst hu
            exact hsU
        · exact appendSep_joinSep ' ' s husne
            (joinSep_ne_nil ' ' (hU u0 (husU u0 (by simp))).2 us0)
    simp only [packChunks] at hch
    split at hch
    · split at hch
      · rw [List.mem_append] at hch
        rcases hch with hch | hch
        · split at hch
          · simp at hch
          · rename_i hne
            simp only [List.mem_singleton] at hch
            subst hch
            rcases happ with hempty | ⟨us, husne, husU, heq⟩
            · rw [hempty] at hne
              exact absurd rfl hne
            · refine ⟨us, husne, husU, ?_⟩
              show trim (appendSep ' ' cur s) = joinSep ' ' us
              rw [heq]
              exact trim_joinSep ' ' us husne (fun u hu => hU u (husU u hu))
        · exact hrec (countWords s) ch hch
      · rw [List.mem_append] at hch
        rcases hch with hch | hch
        · split at hch
          · simp at hch
          · rename_i hne
            simp only [List.mem_singleton] at hch
            subst hch
            rcases hcur with rfl | ⟨us, husne, husU, rfl⟩
            · exact absurd rfl hne
            · refine ⟨us, husne, husU, ?_⟩
              show trim (joinSep ' ' us) = joinSep ' ' us
              exact trim_joinSep ' ' us husne (fun u hu => hU u (husU u hu))
        · exact hrec (countWords s) ch hch
    · exact ih (appendSep ' ' cur s) (cwc + countWords s) hssU happ ch hch

theorem mergeSmallChunks_units (U : List Text) : ∀ cs : List Chunk,
    (∀ c ∈ cs, JoinOfUnits ' ' U c.content) →
    ∀ ch ∈ mergeSmallChunks cs, JoinOfUnits ' ' U ch.content
  | [] => by intro _ ch hch; simp [mergeSmallChunks] at hch
  | [c] => by
    intro h ch hch
    simp only [mergeSmallChunks, List.mem_singleton] at hch
    subst hch
    exact h ch (by simp)
  | c1 :: c2 :: rest => by
    intro h ch hch
    simp only [mergeSmallChunks] at hch
    split at hch
    · rcases List.mem_cons.mp hch with hch | hch
      · subst hch
        obtain ⟨us1, h1ne, h1U, h1eq⟩ := h c1 (by simp)
        obtain ⟨us2, h2ne, h2U, h2eq⟩ := h c2 (by simp)
        refine ⟨us1 ++ us2, by simp [h1ne], ?_, ?_⟩
        · intro u hu
          rcases List.mem_append.mp hu with hu | hu
          · exact h1U u hu
          · exact h2U u hu
        · show c1.content ++ ' ' :: c2.content = joinSep ' ' (us1 ++ us2)
          rw [h1eq, h2eq, joinSep_append ' ' us1 us2 h1ne h2ne]
      · exact mergeSmallChunks_units U rest (fun c hc => h c (by simp [hc])) ch hch
    · rcases List.mem_cons.mp hch with hch | hch
      · subst hch
        exact h ch (by simp)
      · exact mergeSmallChunks_units U (c2 :: rest)
          (fun c hc => h c (List.mem_cons_of_mem c1 hc)) ch hch

theorem packLines_units (U : List Text) (ty : SectionType) :
    ∀ (ls : List Text) (cur : Text) (cwc : Nat),
    (∀ l ∈ ls, l ∈ U) →
    ((cur = [] ∧ cwc = 0) ∨ JoinOfUnits '\n' U cur) →
    ∀ ch ∈ packLines ty cur cwc ls, TrimJoinOfUnits '\n' U ch.content := by
  intro ls
  induction ls with
  | nil =>
    intro cur cwc _ hcur ch hch
    simp only [packLines] at hch
    split at hch
    · simp at hch
    · rename_i hne
      simp only [List.mem_singleton] at hch
      subst hch
      rcases hcur with ⟨rfl, -⟩ | ⟨us, husne, husU, rfl⟩
      · exact absurd rfl hne
      · exact ⟨us, husne, husU, rfl⟩
  | cons l ls ih =>
    intro cur cwc hls hcur ch hch
    have hlU : l ∈ U := hls l (by simp)
    have hlsU : ∀ x ∈ ls, x ∈ U := fun x hx => hls x (by simp [hx])
    have happ : (appendSep '\n' cur l = [] ∧ cwc + countWords l = 0) ∨
        JoinOfUnits '\n' U (appendSep '\n' cur l) := by
      rcases hcur with ⟨rfl, -⟩ | ⟨us, husne, husU, rfl⟩
      · exact Or.inr ⟨[l], by simp, by simpa using hlU, (appendSep_nil_left '\n' l).symm⟩
      · by_cases hje : (joinSep '\n' us).isEmpty
        · refine Or.inr ⟨[l], by simp, by simpa using hlU, ?_⟩
          show appendSep '\n' (joinSep '\n' us) l = joinSep '\n' [l]
          rw [appendSep, if_pos hje, joinSep_single]
        · refine Or.inr ⟨us ++ [l], by simp, ?_, ?_⟩
          · intro u hu
            rcases List.mem_append.mp hu with hu | hu
            · exact husU u hu
            · simp only [List.mem_singleton] at hu
              subst hu
              exact hlU
          · rw [appendSep, if_neg (by simpa using hje),
              joinSep_append_single '\n' l us husne]
    simp only [packLines] at hch
    split at hch
    · rename_i hcond
      rcases List.mem_cons.mp hch with hch | hch
      · subst hch
        rcases hcur with ⟨rfl, rfl⟩ | ⟨us, husne, husU, rfl⟩
        · exact absurd hcond.2 (by simp)
        · exact ⟨us, husne, husU, rfl⟩
      · exact ih l (countWords l) hlsU
          (Or.inr ⟨[l], by simp, by simpa using hlU, (joinSep_single '\n' l).symm⟩) ch hch
    · exact ih (appendSep '\n' cur l) (cwc + countWords l) hlsU happ ch hch

/-! ### Totality on empty and non-empty input -/

theorem sentencePieces_nonws : ∀ (t : Text) (skip : Bool) (cur : Text),
    ((∃ c ∈ cur, isWS c = false) ∨ (∃ c ∈ t, isWS c = false)) →
    ∃ p ∈ sentencePieces skip cur t, ∃ c ∈ p, isWS c = false := by
  intro t
  induction t with
  | nil =>
    intro skip cur h
    rcases h with ⟨c, hc, hcw⟩ | ⟨c, hc, _⟩
    · exact ⟨cur.reverse, by simp [sentencePieces], c, by simpa using hc, hcw⟩
    · simp at hc
  | cons c cs ih =>
    intro skip cur h
    cases skip with
    | true =>
      by_cases hc : isWS c = true
      · simp only [sentencePieces, if_pos rfl, hc, if_true]
        apply ih true cur
        rcases h with hcur | ⟨d, hd, hdw⟩
        · exact Or.inl hcur
        · rcases List.mem_cons.mp hd with rfl | hd
          · rw [hc] at hdw; simp at hdw
          · exact Or.inr ⟨d, hd, hdw⟩
      · simp only [sentencePieces, if_pos rfl, hc, if_false]
        apply ih false [c]
        exact Or.inl ⟨c, by simp, by simpa using hc⟩
    | false =>
      by_cases hsplit : (isWS c && isTerminalCh (cur.headD ' ')) = true
      · simp only [sentencePieces, Bool.false_eq_true, if_false, hsplit, if_true]
        rcases h with ⟨d, hd, hdw⟩ | ⟨d, hd, hdw⟩
        · exact ⟨cur.reverse, by simp, d, by simpa using hd, hdw⟩
        · rcases List.mem_cons.mp hd with rfl | hd
          · rw [Bool.and_eq_true] at hsplit
            rw [hsplit.1] at hdw
            simp at hdw
          · obtain ⟨p, hp, hw⟩ := ih true [] (Or.inr ⟨d, hd, hdw⟩)
            exact ⟨p, by simp [hp], hw⟩
      · simp only [sentencePieces, Bool.false_eq_true, if_false, hsplit]
        apply ih false (c :: cur)
        rcases h with ⟨d, hd, hdw⟩ | ⟨d, hd, hdw⟩
        · exact Or.inl ⟨d, by simp [hd], hdw⟩
        · rcases List.mem_cons.mp hd with rfl | hd
          · exact Or.inl ⟨d, by simp, hdw⟩
          · exact Or.inr ⟨d, hd, hdw⟩

theorem sentencePieces_wsonly : ∀ (t : Text) (skip : Bool) (cur : Text),
    (∀ c ∈ cur, isWS c = true) → (∀ c ∈ t, isWS c = true) →
    ∀ p ∈ sentencePieces skip cur t, ∀ c ∈ p, isWS c = true := by
  intro t
  induction t with
  | nil =>
    intro skip cur hcur _ p hp c hc
    simp only [sentencePieces, List.mem_singleton] at hp
    subst hp
    exact hcur c (by simpa using hc)
  | cons c cs ih =>
    intro skip cur hcur ht p hp d hd
    have hcw : isWS c = true := ht c (by simp)
    have hcs : ∀ x ∈ cs, isWS x = true := fun x hx => ht x (by simp [hx])
    cases skip with
    | true =>
      simp only [sentencePieces, if_pos rfl, hcw, if_true] at hp
      exact ih true cur hcur hcs p hp d hd
    | false =>
      by_cases hsplit : (isWS c && isTerminalCh (cur.headD ' ')) = true
      · simp only [sentencePieces, Bool.false_eq_true, if_false, hsplit, if_true] at hp
        rcases List.mem_cons.mp hp with rfl | hp
        · exact hcur d (by simpa using hd)
        · exact ih true [] (by simp) hcs p hp d hd
      · simp only [sentencePieces, Bool.false_eq_true, if_false, hsplit] at hp
        refine ih false (c :: cur) ?_ hcs p hp d hd
        intro x hx
        rcases List.mem_cons.mp hx with rfl | hx
        · exact hcw
        · exact hcur x hx

theorem trim_wsonly {t : Text} (h : ∀ c ∈ t, isWS c = true) : trim t = [] := by
  have hL : trimL t = [] := by
    rw [trimL, List.dropWhile_eq_nil_iff]
    intro c hc
    exact h c hc
  rw [trim, hL]
  rfl

theorem splitIntoSentences_ne_nil {text : Text} (h : ∃ c ∈ text, isWS c = false) :
    splitIntoSentences text ≠ [] := by
  obtain ⟨p, hp, hw⟩ := sentencePieces_nonws text false [] (Or.inr h)
  have htp : trim p ≠ [] := trim_ne_nil_of_words p (words_ne_nil_of_mem hw)
  have : trim p ∈ splitIntoSentences text := by
    simp only [splitIntoSentences, List.mem_filter, List.mem_map]
    exact ⟨⟨p, hp, rfl⟩, by simpa [List.isEmpty_iff] using htp⟩
  exact List.ne_nil_of_mem this

theorem splitIntoSentences_wsonly {text : Text} (h : ∀ c ∈ text, isWS c = true) :
    splitIntoSentences text = [] := by
  rw [splitIntoSentences, List.filter_eq_nil_iff]
  intro s hs
  obtain ⟨p, hp, rfl⟩ := List.mem_map.mp hs
  have : trim p = [] := trim_wsonly (sentencePieces_wsonly text false [] (by simp) h p hp)
  simp [this]

theorem optimizeContent_of_no_sentences {text : Text}
    (h : splitIntoSentences text = []) : optimizeContentForWordCount text = [] := by
  rw [optimizeContentForWordCount, h]
  rfl

theorem splitLines_chars : ∀ (t : Text) (l : Text), l ∈ splitLines t → ∀ c ∈ l, c ∈ t := by
  intro t
  induction t with
  | nil =>
    intro l hl c hc
    simp only [splitLines, List.mem_singleton] at hl
    subst hl
    simp at hc
  | cons x xs ih =>
    intro l hl c hc
    by_cases hx : x = '\n'
    · rw [splitLines, if_pos hx] at hl
      rcases List.mem_cons.mp hl with rfl | hl
      · simp at hc
      · exact List.mem_cons_of_mem x (ih l hl c hc)
    · rw [splitLines, if_neg hx] at hl
      rcases hsplit : splitLines xs with - | ⟨g, gs⟩
      · exact absurd hsplit (splitLines_ne_nil xs)
      · rw [hsplit] at hl
        rcases List.mem_cons.mp hl with rfl | hl
        · rcases List.mem_cons.mp hc with rfl | hc
          · simp
          · exact List.mem_cons_of_mem x (ih g (by rw [hsplit]; simp) c hc)
        · exact List.mem_cons_of_mem x (ih l (by rw [hsplit]; simp [hl]) c hc)

theorem splitBlank_blank : ∀ ls : List Text, (∀ l ∈ ls, isBlankLine l = true) →
    ∀ g ∈ splitBlank ls, g = [] := by
  intro ls
  induction ls with
  | nil =>
    intro _ g hg
    simpa [splitBlank] using hg
  | cons l ls ih =>
    intro h g hg
    have hl : isBlankLine l = true := h l (by simp)
    rw [splitBlank, if_pos hl] at hg
    rcases List.mem_cons.mp hg with rfl | hg
    · rfl
    · exact ih (fun x hx => h x (by simp [hx])) g hg

theorem splitSongIntoSections_wsonly {lyrics : Text}
    (h : ∀ c ∈ lyrics, isWS c = true) : splitSongIntoSections lyrics = [] := by
  have hblank : ∀ l ∈ splitLines lyrics, isBlankLine l = true := by
    intro l hl
    rw [isBlankLine, List.all_eq_true]
    intro c hc
    exact h c (splitLines_chars lyrics l hl c hc)
  rw [splitSongIntoSections]
  rw [List.map_eq_nil_iff, List.filter_eq_nil_iff]
  intro p hp
  obtain ⟨g, hg, rfl⟩ := List.mem_map.mp hp
  have : g = [] := splitBlank_blank (splitLines lyrics) hblank g hg
  subst this
  simp [joinSep, trim, trimL, trimR]

theorem optimizeSong_of_no_sections {lyrics : Text}
    (h : splitSongIntoSections lyrics = []) : optimizeSongForWordCount lyrics = [] := by
  rw [optimizeSongForWordCount, h]
  rfl


/-! ### Remaining spec-side models and concrete inputs -/

/-- Modelled from the spec §4.4 and P5 (claim C4 as stated): each
Section's chunks are titled with the 1-based position within that
Section's own chunk sequence and that Section's own total. -/
def specTitlesPerSection (songTitle lyrics : Text) : List Text :=
  (splitSongIntoSections lyrics).flatMap fun sec =>
    (List.range (sectionChunks sec).length).map
      (fun i => generateOptimizedVerseTitle ((sectionChunks sec).getD i ⟨[], 0, .verse⟩)
        songTitle (i + 1) (sectionChunks sec).length)

/-- Modelled from the spec §4.1 (claim C5 as stated): classification
inspects only the Section's first trimmed line. -/
def claimClassifyFirstLine (content : Text) : SectionType :=
  let fl := trim ((splitLines content).headD [])
  if startsWithRslash fl || containsSub ("refrain".toList) (toLowerText fl) then .refrain
  else if startsNumDot fl then .numbered_verse
  else .verse

/-- One sentence of 79 one-letter words. -/
def sentence79 : Text := joinSep ' ' (List.replicate 79 ['a']) ++ ['.']

/-- One sentence of 12 one-letter words. -/
def sentence12 : Text := joinSep ' ' (List.replicate 12 ['b']) ++ ['.']

/-- One sentence of 30 one-letter words. -/
def sentence30 : Text := joinSep ' ' (List.replicate 30 ['c']) ++ ['.']

/-- Reading-mode input that triggers the overflow exception: a 79-word
sentence followed by a 12-word sentence. -/
def overflowInput : Text := sentence79 ++ ' ' :: sentence12

/-- The same trigger followed by one more sentence of 30 words. -/
def overflowInput3 : Text := sentence79 ++ ' ' :: sentence12 ++ ' ' :: sentence30

/-- One 79-word lyric line. -/
def line79 : Text := joinSep ' ' (List.replicate 79 ['a'])

/-- One 12-word lyric line. -/
def line12 : Text := joinSep ' ' (List.replicate 12 ['b'])

/-- Song lyrics that are a single 91-word section of two lines. -/
def bigSectionLyrics : Text := line79 ++ '\n' :: line12

/-- A song with a refrain section and a verse section. -/
def twoSectionLyrics : Text := ("R/ Alleluia\n\nGloria").toList

/-- A demo song title. -/
def demoTitle : Text := ("Chant").toList

/-- Lyrics whose single section mentions `refrain` only on its second
line. -/
def sneakyLyrics : Text := ("La la la\nmon refrain").toList

/-- The single section `sneakyLyrics` produces. -/
def sneakySection : SongSection := ⟨("La la la\nmon refrain").toList, .refrain⟩

/-- A song of two three-word sections. -/
def tinyLyrics : Text := ("a b c\n\nd e f").toList

/-- One sentence of 20 words, all the single letter `c`. -/
def sentence20 (c : Char) : Text := joinSep ' ' (List.replicate 20 [c]) ++ ['.']

/-- Reading-mode input of five 20-word sentences (100 words). -/
def fiveSentenceInput : Text :=
  joinSep ' ' [sentence20 'a', sentence20 'b', sentence20 'c', sentence20 'd', sentence20 'e']

/-- A single 200-word sentence. -/
def bigSentence : Text := joinSep ' ' (List.replicate 200 ['z']) ++ ['.']


/-! ### The claims -/

set_option maxRecDepth 40000

/-- C1: the claim that reading-mode chunk contents, joined and
whitespace-collapsed, reproduce the collapsed input fails on the code:
on `overflowInput` the overflow-exception path emits the 12-word
sentence twice — once force-appended to the closing 91-word chunk and
once as the start of the next chunk — so the concatenation differs from
the input. -/
theorem C1_preservation_fails :
    optimizeContentForWordCount overflowInput =
      [⟨sentence79 ++ ' ' :: sentence12, 91⟩, ⟨sentence12, 12⟩] ∧
    collapseWs (joinSep ' ' ((optimizeContentForWordCount overflowInput).map Chunk.content)) ≠
      collapseWs overflowInput := by
  decide

/-- C2: the overflow exception (step 3a) does fire on a sub-15-word unit
when the accumulator is under MIN, and the closed chunk exceeds MAX by
at most 15 (91 = 79 + 12); but the force-appended unit does not appear
exactly once — after closing the chunk the code restarts the
accumulator with the same unit, so the following chunk begins with the
force-appended `sentence12`, not with the subsequent unit
`sentence30`. -/
theorem C2_overflow_duplicates_unit :
    splitIntoSentences overflowInput3 = [sentence79, sentence12, sentence30] ∧
    countWords sentence79 = 79 ∧ countWords sentence12 = 12 ∧
    packChunks [] 0 [sentence79, sentence12, sentence30] =
      [⟨sentence79 ++ ' ' :: sentence12, 91⟩, ⟨sentence12 ++ ' ' :: sentence30, 42⟩] := by
  decide

/-- C3 (counterexample): on a single 91-word section of a 79-word line
and a 12-word line, the song-mode packer emits two chunks (79 and 12
words) while the §4.2 packer with the step-3a exception would emit one
91-word chunk — the song-mode loop has no overflow exception. -/
theorem C3_exception_counterexample :
    optimizeSongForWordCount bigSectionLyrics ≠ specSongChunks bigSectionLyrics := by
  decide

/-- C3 (amended): for every song, the emitted chunk sequence equals, per
Section, the §4.2 greedy packer WITHOUT the step-3a overflow exception
run over that Section's lines (newline joins, trimmed contents). -/
theorem C3_song_packer_no_exception (lyrics : Text) :
    optimizeSongForWordCount lyrics = specSongChunksNoExc lyrics := by
  rw [optimizeSongForWordCount, specSongChunksNoExc]
  apply List.flatMap_congr
  intro sec hsec
  obtain ⟨hne, htr, -⟩ := mem_splitSongIntoSections hsec
  exact sectionChunks_eq_specNoExc sec hne htr

/-- C4 (counterexample): for a two-section song the generated titles
end in `(1/2)` and `(2/2)` — position and total are global to the whole
song — while per-Section numbering as claimed would give `(1/1)` twice. -/
theorem C4_per_section_counterexample :
    songSlideTitles demoTitle twoSectionLyrics ≠
      specTitlesPerSection demoTitle twoSectionLyrics := by
  decide

/-- C4 (amended): every generated title's position and total are global
to the song's flat chunk list: the `i`-th title (0-based `i`) ends with
the suffix ` (i+1/total)` where `total` is the whole song's chunk
count, so the suffixes run `(1/total) … (total/total)` over the whole
song, not per Section. -/
theorem C4_titles_use_global_position (songTitle lyrics : Text) :
    (songSlideTitles songTitle lyrics).length = (optimizeSongForWordCount lyrics).length ∧
    ∀ (i : Nat) (h : i < (songSlideTitles songTitle lyrics).length),
      ∃ base, (songSlideTitles songTitle lyrics).get ⟨i, h⟩ =
        base ++ titleSfx (i + 1) (optimizeSongForWordCount lyrics).length := by
  constructor
  · simp [songSlideTitles]
  · intro i h
    have hlen : i < (optimizeSongForWordCount lyrics).length := by
      simpa [songSlideTitles] using h
    have hget : (songSlideTitles songTitle lyrics).get ⟨i, h⟩ =
        generateOptimizedVerseTitle
          ((optimizeSongForWordCount lyrics).getD i ⟨[], 0, .verse⟩)
          songTitle (i + 1) (optimizeSongForWordCount lyrics).length := by
      simp [songSlideTitles, List.get_eq_getElem]
    rw [hget]
    exact ⟨_, rfl⟩

/-- C4 (witness): the global-position property instantiated at the
two-section demo song. -/
theorem C4_titles_global_witness :
    (songSlideTitles demoTitle twoSectionLyrics).length =
      (optimizeSongForWordCount twoSectionLyrics).length ∧
    ∀ (i : Nat) (h : i < (songSlideTitles demoTitle twoSectionLyrics).length),
      ∃ base, (songSlideTitles demoTitle twoSectionLyrics).get ⟨i, h⟩ =
        base ++ titleSfx (i + 1) (optimizeSongForWordCount twoSectionLyrics).length :=
  C4_titles_use_global_position demoTitle twoSectionLyrics

/-- C5 (counterexample): on lyrics whose only section says `refrain` on
its second line, the code classifies the section as refrain (it scans
the whole trimmed content), while classification by the first trimmed
line alone, as claimed, yields verse. -/
theorem C5_first_line_counterexample :
    (splitSongIntoSections sneakyLyrics).map SongSection.type ≠
      (splitSongIntoSections sneakyLyrics).map
        (fun sec => claimClassifyFirstLine sec.content) := by
  decide

/-- C5 (amended): every Section is classified from its whole trimmed
content — refrain iff the content starts with `R/` or contains
`refrain` case-insensitively anywhere; else numbered verse iff the
content starts with a numeral and a period; else verse. -/
theorem C5_classification_scans_whole_section (lyrics : Text) (sec : SongSection)
    (hmem : sec ∈ splitSongIntoSections lyrics) :
    (sec.type = SectionType.refrain ↔
      (startsWithRslash sec.content ||
        containsSub ("refrain".toList) (toLowerText sec.content)) = true) ∧
    (sec.type = SectionType.numbered_verse ↔
      (startsWithRslash sec.content ||
        containsSub ("refrain".toList) (toLowerText sec.content)) = false ∧
      startsNumDot sec.content = true) ∧
    (sec.type = SectionType.verse ↔
      (startsWithRslash sec.content ||
        containsSub ("refrain".toList) (toLowerText sec.content)) = false ∧
      startsNumDot sec.content = false) := by
  obtain ⟨-, -, htype⟩ := mem_splitSongIntoSections hmem
  rw [htype, classifyType]
  generalize (startsWithRslash sec.content ||
    containsSub ("refrain".toList) (toLowerText sec.content)) = b
  generalize startsNumDot sec.content = n
  cases b <;> cases n <;> simp

/-- C5 (witness): the whole-content classification instantiated at the
section that mentions `refrain` on its second line. -/
theorem C5_scans_whole_section_witness :
    (sneakySection.type = SectionType.refrain ↔
      (startsWithRslash sneakySection.content ||
        containsSub ("refrain".toList) (toLowerText sneakySection.content)) = true) ∧
    (sneakySection.type = SectionType.numbered_verse ↔
      (startsWithRslash sneakySection.content ||
        containsSub ("refrain".toList) (toLowerText sneakySection.content)) = false ∧
      startsNumDot sneakySection.content = true) ∧
    (sneakySection.type = SectionType.verse ↔
      (startsWithRslash sneakySection.content ||
        containsSub ("refrain".toList) (toLowerText sneakySection.content)) = false ∧
      startsNumDot sneakySection.content = false) :=
  C5_classification_scans_whole_section sneakyLyrics sneakySection (by decide)

/-- C6: the merge pass merges a pair exactly under the stated condition
(left chunk under MIN, not last, combined within MAX), joining contents
with one space and summing counts; the pass runs once left-to-right and
the tagged pass shows a merge result is never reconsidered; adjacent
outputs that both passed through unmerged are never a mergeable pair;
and song mode leaves adjacent sub-MIN chunks unmerged (no merge pass
runs there), shown on a two-section demo. -/
theorem C6_merge_pass_behaviour :
    (∀ (c1 c2 : Chunk) (rest : List Chunk),
      mergeSmallChunks (c1 :: c2 :: rest) =
        if c1.wordCount < MIN_WORDS_PER_SLIDE ∧
            c1.wordCount + c2.wordCount ≤ MAX_WORDS_PER_SLIDE then
          ⟨c1.content ++ ' ' :: c2.content, c1.wordCount + c2.wordCount⟩ ::
            mergeSmallChunks rest
        else c1 :: mergeSmallChunks (c2 :: rest)) ∧
    (∀ cs : List Chunk, (mergeSmallChunksT cs).map Prod.fst = mergeSmallChunks cs) ∧
    (∀ cs : List Chunk, List.Chain' MergeMaximal (mergeSmallChunksT cs)) ∧
    optimizeSongForWordCount tinyLyrics =
      [⟨("a b c").toList, 3, .verse⟩, ⟨("d e f").toList, 3, .verse⟩] :=
  ⟨fun _ _ _ => rfl, mergeSmallChunksT_fst, chain_mergeSmallChunksT, by decide⟩

/-- C7: the worked example — five 20-word sentences pack into an
80-word chunk (sentences 1–4) and a 20-word chunk (sentence 5), and the
merge pass leaves the pair unmerged since 80 + 20 exceeds MAX. -/
theorem C7_worked_example :
    splitIntoSentences fiveSentenceInput =
      [sentence20 'a', sentence20 'b', sentence20 'c', sentence20 'd', sentence20 'e'] ∧
    packChunks [] 0 (splitIntoSentences fiveSentenceInput) =
      [⟨joinSep ' ' [sentence20 'a', sentence20 'b', sentence20 'c', sentence20 'd'], 80⟩,
       ⟨sentence20 'e', 20⟩] ∧
    optimizeContentForWordCount fiveSentenceInput =
      [⟨joinSep ' ' [sentence20 'a', sentence20 'b', sentence20 'c', sentence20 'd'], 80⟩,
       ⟨sentence20 'e', 20⟩] := by
  decide

/-- C8: no TextUnit is ever split across chunks — every reading-mode
chunk is the single-space join of whole sentences of the input, every
song-mode chunk is (up to an outer trim) the newline join of whole
lines of its source Section, and a lone 200-word sentence is emitted
whole as one 200-word chunk. -/
theorem C8_no_unit_splitting :
    (∀ (text : Text) (ch : Chunk), ch ∈ optimizeContentForWordCount text →
      JoinOfUnits ' ' (splitIntoSentences text) ch.content) ∧
    (∀ (lyrics : Text) (ch : SongChunk), ch ∈ optimizeSongForWordCount lyrics →
      ∃ sec ∈ splitSongIntoSections lyrics,
        TrimJoinOfUnits '\n' (splitLines sec.content) ch.content) ∧
    optimizeContentForWordCount bigSentence = [⟨bigSentence, 200⟩] := by
  refine ⟨?_, ?_, by decide⟩
  · intro text ch hch
    rw [optimizeContentForWordCount] at hch
    have hU : ∀ u ∈ splitIntoSentences text, trim u = u ∧ u ≠ [] :=
      fun u hu => mem_splitIntoSentences hu
    refine mergeSmallChunks_units _ _ ?_ ch hch
    intro c hc
    exact packChunks_units _ hU (splitIntoSentences text) [] 0
      (fun _ hs => hs) (Or.inl rfl) c hc
  · intro lyrics ch hch
    rw [optimizeSongForWordCount] at hch
    obtain ⟨sec, hsec, hchsec⟩ := List.mem_flatMap.mp hch
    refine ⟨sec, hsec, ?_⟩
    rw [sectionChunks] at hchsec
    split at hchsec
    · simp only [List.mem_singleton] at hchsec
      subst hchsec
      obtain ⟨hne, htr, -⟩ := mem_splitSongIntoSections hsec
      refine ⟨splitLines sec.content, splitLines_ne_nil sec.content, fun _ hu => hu, ?_⟩
      show sec.content = trim (joinSep '\n' (splitLines sec.content))
      rw [joinSep_splitLines, htr]
    · exact packLines_units (splitLines sec.content) sec.type
        (splitLines sec.content) [] 0 (fun _ hl => hl) (Or.inl ⟨rfl, rfl⟩) ch hchsec

/-- C9: the sentence splitter is total — a text with any non-whitespace
character yields at least one TextUnit, a whitespace-only text yields
none; zero TextUnits yield zero chunks in reading mode, zero Sections
yield zero chunks in song mode, and whitespace-only lyrics yield zero
chunks. -/
theorem C9_empty_input_totality :
    (∀ text : Text, (∃ c ∈ text, isWS c = false) → splitIntoSentences text ≠ []) ∧
    (∀ text : Text, (∀ c ∈ text, isWS c = true) → splitIntoSentences text = []) ∧
    (∀ text : Text, splitIntoSentences text = [] → optimizeContentForWordCount text = []) ∧
    (∀ lyrics : Text, splitSongIntoSections lyrics = [] →
      optimizeSongForWordCount lyrics = []) ∧
    (∀ lyrics : Text, (∀ c ∈ lyrics, isWS c = true) →
      optimizeSongForWordCount lyrics = []) :=
  ⟨fun _ h => splitIntoSentences_ne_nil h,
   fun _ h => splitIntoSentences_wsonly h,
   fun _ h => optimizeContent_of_no_sentences h,
   fun _ h => optimizeSong_of_no_sections h,
   fun _ h => optimizeSong_of_no_sections (splitSongIntoSections_wsonly h)⟩

/-- C10: every chunk either pipeline emits — merged chunks included —
has non-empty trimmed content, stores exactly the content's
whitespace-delimited word count, and hence has word count at least 1. -/
theorem C10_chunk_wellformedness :
    (∀ (text : Text) (ch : Chunk), ch ∈ optimizeContentForWordCount text →
      ch.content ≠ [] ∧ trim ch.content = ch.content ∧
        ch.wordCount = countWords ch.content ∧ 1 ≤ ch.wordCount) ∧
    (∀ (lyrics : Text) (ch : SongChunk), ch ∈ optimizeSongForWordCount lyrics →
      ch.content ≠ [] ∧ trim ch.content = ch.content ∧
        ch.wordCount = countWords ch.content ∧ 1 ≤ ch.wordCount) := by
  constructor
  · intro text ch hch
    rw [optimizeContentForWordCount] at hch
    have hwf : WfBody ch.content ch.wordCount := by
      refine mergeSmallChunks_wf _ ?_ ch hch
      intro c hc
      exact packChunks_wf (splitIntoSentences text) [] 0 rfl c hc
    exact ⟨hwf.1, hwf.2.1, hwf.2.2, hwf.count_pos⟩
  · intro lyrics ch hch
    rw [optimizeSongForWordCount] at hch
    obtain ⟨sec, hsec, hchsec⟩ := List.mem_flatMap.mp hch
    obtain ⟨hne, htr, -⟩ := mem_splitSongIntoSections hsec
    have hwf := sectionChunks_wf sec hne htr ch hchsec
    exact ⟨hwf.1, hwf.2.1, hwf.2.2, hwf.count_pos⟩


end Messe
